import Mathlib

/-!
Verification of the IOC extraction engine in `parser.go` (package `parser`).

The Go source is shallowly embedded below.  Strings are Lean `String`s and
Go byte offsets are character offsets (every input exercised here is ASCII,
where the two coincide).  The external collaborators identified by the
specification — the regex engine (`regexp.FindAllString` /
`FindAllStringIndex`), the public-suffix eTLD+1 lookup
(`publicsuffix.EffectiveTLDPlusOne`), and `net/url` hostname extraction —
are passed in as explicit inputs (`List String`, index lists, `Oracles`),
exactly as the spec treats them (external services, §1).  The IP
classification of `net.ParseIP` + `IsPrivate`/`IsLoopback`/
`IsLinkLocalUnicast` is embedded concretely for the dotted-quad literals
that the `ipv4` pattern produces.
-/

namespace ParserGo

/-! ### ASCII string primitives (Go `strings` package operations used by the code) -/

/-- Go `strings.ToLower` on one character, restricted to ASCII: map `A`-`Z`
(codepoints 65-90) to `a`-`z`; every other character is unchanged. -/
def lowerChar (c : Char) : Char :=
  if 65 ≤ c.toNat ∧ c.toNat ≤ 90 then Char.ofNat (c.toNat + 32) else c

/-- Go `strings.ToLower` restricted to ASCII strings. -/
def goToLower (s : String) : String := ⟨s.data.map lowerChar⟩

/-- Go `strings.Split(s, sep)` for a one-character separator, on char lists. -/
def splitChar (sep : Char) : List Char → List (List Char)
  | [] => [[]]
  | c :: cs =>
    match splitChar sep cs with
    | [] => [[]]
    | l :: ls => if c = sep then [] :: l :: ls else (c :: l) :: ls

/-- Dot-separated label list of a domain string (`strings.Split(s, ".")`). -/
def splitDot (s : String) : List String := (splitChar '.' s.data).map (fun l => ⟨l⟩)

/-- Rejoin labels with `.`, the inverse view used by the suffix walk of
`isDomainIgnored` (dropping everything up to the first `.` of the joined
string is dropping the head label). -/
def joinDot : List String → String
  | [] => ""
  | [l] => l
  | l :: ls => l ++ "." ++ joinDot ls

/-- Go `strings.HasPrefix s p`. -/
def startsWithStr (s p : String) : Bool := s.data.take p.data.length == p.data

/-- Membership in the cutset `"/.,;:"` of the URL trim in the Go source. -/
def isCutset (c : Char) : Bool := c == '/' || c == '.' || c == ',' || c == ';' || c == ':'

/-- Go `strings.TrimRight(s, "/.,;:")`: drop all trailing cutset characters. -/
def trimRightCutset (s : String) : String := ⟨(s.data.reverse.dropWhile isCutset).reverse⟩

/-- Go `strings.TrimSuffix(s, "/")`: drop one trailing slash if present. -/
def trimSlashEnd (s : String) : String :=
  if s.data.getLast? = some '/' then ⟨s.data.dropLast⟩ else s

/-- The URL-match normalization of the Go source:
`strings.TrimSuffix(strings.TrimRight(m, "/.,;:"), "/")`. -/
def trimUrlMatch (s : String) : String := trimSlashEnd (trimRightCutset s)

/-- Go `strings.TrimSuffix(s, ".")`: drop one trailing dot if present
(used by `isDomainIgnored`). -/
def trimDotEnd (s : String) : String :=
  if s.data.getLast? = some '.' then ⟨s.data.dropLast⟩ else s

/-- Go `strings.TrimPrefix(s, ".")` as used on ignore-list entries in
`NewContextualizer`: drop one leading dot if present. -/
def stripLeadDot (s : String) : String :=
  match s.data with
  | '.' :: r => ⟨r⟩
  | _ => s

/-! ### Data model (`parser.go` types) -/

/-- Go `Match{Value, Type}`; the Go field `Type` is called `Ty` here because
`Type` is a Lean keyword. -/
structure Match where
  Value : String
  Ty : String
deriving DecidableEq, Repr

/-- Go `PrivateChecks`. The Go `map[string]struct{}` sets are lists here;
only membership is ever consulted. -/
structure PrivateChecks where
  IgnorePrivateIPs : Bool
  IgnoredDomains : List String
  IgnoredEmails : List String
deriving DecidableEq, Repr

/-- Go `Contextualizer`.  `Expressions` maps kind names to compiled regexes;
the compiled patterns are external handles, so only the key set is kept. -/
structure Contextualizer where
  ID : String
  Expressions : List String
  Checks : PrivateChecks
deriving DecidableEq, Repr

/-- The external collaborators of §6: `publicsuffix.EffectiveTLDPlusOne`
(`none` models a returned error) and `url.Parse(...).Hostname()`
(`none` models a parse error). -/
structure Oracles where
  etld1 : String → Option String
  hostname : String → Option String

/-- Go `NewContextualizer`: case-fold the ignore lists (stripping one
leading `.` from each domain entry) and install the fixed pattern table. -/
def NewContextualizer (ignoreIPs : Bool) (ignoreDomains ignoreEmails : List String) :
    Contextualizer :=
  { ID := "contextualizer"
    Expressions := ["md5", "sha1", "sha256", "sha512", "ipv4", "ipv6", "email",
                    "url", "domain", "filepath", "filename"]
    Checks :=
      { IgnorePrivateIPs := ignoreIPs
        IgnoredDomains := ignoreDomains.map (fun d => goToLower (stripLeadDot d))
        IgnoredEmails := ignoreEmails.map goToLower } }

/-! ### Domain-ignore suffix walk (`isDomainIgnored`, parser.go lines 216-229) -/

/-- The loop body of `isDomainIgnored`, phrased on the label list: test the
current suffix joined with dots against the ignore set; on a miss drop the
leftmost label (in the Go loop: everything up to and including the first
`.` of `current`) and repeat; the final label is tested before the loop
exits. -/
def suffixWalk (ign : List String) : List String → Bool
  | [] => false
  | l :: ls => ign.contains (joinDot (l :: ls)) || suffixWalk ign ls

/-- Go `isDomainIgnored`: case-fold, strip a single trailing dot, then walk
the suffixes. -/
def isDomainIgnored (ck : PrivateChecks) (domain : String) : Bool :=
  suffixWalk ck.IgnoredDomains (splitDot (trimDotEnd (goToLower domain)))

/-! ### Private-IP predicate (`isPrivateIP`, parser.go lines 231-237) -/

/-- ASCII decimal digit test. -/
def isDigitC (c : Char) : Bool := decide (48 ≤ c.toNat ∧ c.toNat ≤ 57)

/-- Decimal value of a digit list. -/
def octetVal (l : List Char) : Nat := l.foldl (fun a c => a * 10 + (c.toNat - 48)) 0

/-- One dotted-quad field as `net.ParseIP` accepts it: nonempty, digits
only, no leading zero (except `"0"` itself), value at most 255. -/
def parseOctet (l : List Char) : Option Nat :=
  if l ≠ [] ∧ l.all isDigitC = true ∧ ¬(2 ≤ l.length ∧ l.head? = some '0') ∧ octetVal l ≤ 255
  then some (octetVal l)
  else none

/-- Modelled from the spec: the external `net.ParseIP` (§4.5), restricted to
the IPv4 dotted-quad form — the only form the `ipv4` pattern
`\d{1,3}\.\d{1,3}\.\d{1,3}\.\d{1,3}` can hand to `isPrivateIP`.  `none`
models Go's `nil` result for an unparseable literal. -/
def parseIPv4 (s : String) : Option (Nat × Nat × Nat × Nat) :=
  match (splitChar '.' s.data).map parseOctet with
  | [some a, some b, some c, some d] => some (a, b, c, d)
  | _ => none

/-- Modelled from the spec: `ip.IsPrivate()` for IPv4 — RFC 1918 ranges
10.0.0.0/8, 172.16.0.0/12, 192.168.0.0/16. -/
def isPrivateV4 (a b : Nat) : Bool :=
  decide (a = 10 ∨ (a = 172 ∧ 16 ≤ b ∧ b ≤ 31) ∨ (a = 192 ∧ b = 168))

/-- Modelled from the spec: `ip.IsLoopback()` for IPv4 — 127.0.0.0/8. -/
def isLoopbackV4 (a : Nat) : Bool := decide (a = 127)

/-- Modelled from the spec: `ip.IsLinkLocalUnicast()` for IPv4 —
169.254.0.0/16. -/
def isLinkLocalV4 (a b : Nat) : Bool := decide (a = 169 ∧ b = 254)

/-- Go `isPrivateIP`: parse the literal; an unparseable literal is not
private; otherwise test private, loopback and link-local-unicast ranges. -/
def isPrivateIP (s : String) : Bool :=
  match parseIPv4 s with
  | none => false
  | some (a, b, _, _) => isPrivateV4 a b || isLoopbackV4 a || isLinkLocalV4 a b

/-! ### Single-kind matcher (`GetMatches`, parser.go lines 63-125) -/

/-- The per-match normalization of `GetMatches`: only the `url` kind trims
trailing `"/.,;:"` characters. -/
def norm1 (kind m : String) : String := if kind = "url" then trimUrlMatch m else m

/-- The case-folded de-duplication key (`cleanMatch` in the Go source). -/
def keyOf (kind m : String) : String := goToLower (norm1 kind m)

/-- The value stored in the result (`finalValue` in the Go source): the
case-folded form for `domain` and `email`, the (trimmed) original otherwise. -/
def finalVal (kind m : String) : String :=
  if kind = "domain" ∨ kind = "email" then keyOf kind m else norm1 kind m

/-- The `url` branch of the `GetMatches` switch: if the URL parses and its
hostname is an ignored domain, the candidate is dropped; a parse error
drops nothing. -/
def hostDrops (ck : PrivateChecks) (o : Oracles) (clean : String) : Bool :=
  match o.hostname clean with
  | some h => isDomainIgnored ck h
  | none => false

/-- The switch of `GetMatches` (parser.go lines 79-112) as a drop decision:
`true` means `continue` (the candidate is discarded). `m1` is the trimmed
match, `clean` its case-folded form. -/
def filterDrops (ck : PrivateChecks) (o : Oracles) (kind m1 clean : String) : Bool :=
  if kind = "url" then hostDrops ck o clean
  else if kind = "filepath" then
    startsWithStr clean "http" || startsWithStr clean "www" || startsWithStr clean "ftp"
  else if kind = "ipv4" then ck.IgnorePrivateIPs && isPrivateIP m1
  else if kind = "email" then
    ck.IgnoredEmails.contains clean ||
      (match splitChar '@' clean.data with
       | [_, d] => isDomainIgnored ck ⟨d⟩
       | _ => false)
  else if kind = "domain" then isDomainIgnored ck clean
  else false

/-- The `base_domain` synthesis inside the `domain` branch: on a successful
lookup whose value is nonempty, differs from the match, and is not itself
ignored, one extra `base_domain` result is produced. -/
def baseExtras (ck : PrivateChecks) (o : Oracles) (clean : String) : List Match :=
  match o.etld1 clean with
  | some b =>
    if b ≠ "" ∧ b ≠ clean ∧ isDomainIgnored ck b = false then [⟨b, "base_domain"⟩] else []
  | none => []

/-- The extra results appended before the primary match: nonempty only for
the `domain` kind. -/
def extrasOf (ck : PrivateChecks) (o : Oracles) (kind clean : String) : List Match :=
  if kind = "domain" then baseExtras ck o clean else []

/-- The loop of `GetMatches` over the regex matches, with the `seen` set as
explicit state.  `seen` grows (and a primary result is appended) exactly
when the final value is nonempty, as in the Go source. -/
def getMatchesAux (ck : PrivateChecks) (o : Oracles) (kind : String) :
    List String → List String → List Match
  | _, [] => []
  | seen, m :: ms =>
    if seen.contains (keyOf kind m) then getMatchesAux ck o kind seen ms
    else if filterDrops ck o kind (norm1 kind m) (keyOf kind m) then
      getMatchesAux ck o kind seen ms
    else if finalVal kind m = "" then
      extrasOf ck o kind (keyOf kind m) ++ getMatchesAux ck o kind seen ms
    else
      extrasOf ck o kind (keyOf kind m) ++
        (⟨finalVal kind m, kind⟩ : Match) :: getMatchesAux ck o kind (keyOf kind m :: seen) ms

/-- Go `GetMatches(text, kind, regex)`.  `ms` is the output of the
external `regex.FindAllString(text, -1)` in left-to-right order. -/
def GetMatches (c : Contextualizer) (o : Oracles) (kind : String) (ms : List String) :
    List Match :=
  getMatchesAux c.Checks o kind [] ms

/-! ### Multi-kind extractor (`ExtractAll`, parser.go lines 127-214) -/

/-- Go slice `text[i:j]` on character offsets. -/
def slice (text : String) (p : Nat × Nat) : String := ⟨(text.data.drop p.1).take (p.2 - p.1)⟩

/-- The overlap test of `ExtractAll` (parser.go lines 164-170): the
candidate range is fully contained in some claimed URL range. -/
def containedInAny (ranges : List (Nat × Nat)) (p : Nat × Nat) : Bool :=
  ranges.any (fun r => decide (r.1 ≤ p.1) && decide (p.2 ≤ r.2))

/-- The URL pass of `ExtractAll` (parser.go lines 132-149): trim each raw
URL occurrence, drop it if its parsed hostname is ignored, then
de-duplicate by case-folded value; each surviving occurrence claims its
original offset range. -/
def urlPassAux (ck : PrivateChecks) (o : Oracles) (text : String) :
    List String → List (Nat × Nat) → List (Nat × Nat) × List Match
  | _, [] => ([], [])
  | seen, p :: ps =>
    if hostDrops ck o (goToLower (trimUrlMatch (slice text p))) then
      urlPassAux ck o text seen ps
    else if seen.contains (goToLower (trimUrlMatch (slice text p))) then
      urlPassAux ck o text seen ps
    else
      let r := urlPassAux ck o text (goToLower (trimUrlMatch (slice text p)) :: seen) ps
      (p :: r.1, (⟨trimUrlMatch (slice text p), "url"⟩ : Match) :: r.2)

/-- The switch of the non-URL loop of `ExtractAll` (parser.go lines
179-207) as a drop decision.  Unlike `GetMatches`, the `filepath` branch
tests only the `http` and `www` prefixes, and there is no `url` branch. -/
def eaFilterDrops (ck : PrivateChecks) (kind val clean : String) : Bool :=
  if kind = "filepath" then startsWithStr clean "http" || startsWithStr clean "www"
  else if kind = "ipv4" then ck.IgnorePrivateIPs && isPrivateIP val
  else if kind = "email" then
    ck.IgnoredEmails.contains clean ||
      (match splitChar '@' clean.data with
       | [_, d] => isDomainIgnored ck ⟨d⟩
       | _ => false)
  else if kind = "domain" then isDomainIgnored ck clean
  else false

/-- The non-URL loop of `ExtractAll` for one kind: containment suppression
first, then the per-kind de-duplication, then the switch; a surviving
candidate is recorded with its original casing, and the `domain` kind also
contributes `base_domain` entries (the second component). -/
def kindPassAux (ck : PrivateChecks) (o : Oracles) (kind text : String)
    (ranges : List (Nat × Nat)) :
    List String → List (Nat × Nat) → List Match × List Match
  | _, [] => ([], [])
  | seen, p :: ps =>
    if containedInAny ranges p then kindPassAux ck o kind text ranges seen ps
    else if seen.contains (goToLower (slice text p)) then
      kindPassAux ck o kind text ranges seen ps
    else if eaFilterDrops ck kind (slice text p) (goToLower (slice text p)) then
      kindPassAux ck o kind text ranges seen ps
    else
      let r := kindPassAux ck o kind text ranges (goToLower (slice text p) :: seen) ps
      ((⟨slice text p, kind⟩ : Match) :: r.1,
        extrasOf ck o kind (goToLower (slice text p)) ++ r.2)

/-- Go `ExtractAll(text)`, projected at one result key.  `scan kind text`
is the output of the external `regexp.FindAllStringIndex` for that kind's
pattern.  The Go loop ranges over the `Expressions` map in unspecified
order, but each key's result sequence depends only on that kind's own pass
(`base_domain` is fed only by the `domain` pass), so the per-key projection
is well defined. -/
def ExtractAllKind (c : Contextualizer) (o : Oracles)
    (scan : String → String → List (Nat × Nat)) (text kind : String) : List Match :=
  if kind = "url" then (urlPassAux c.Checks o text [] (scan "url" text)).2
  else if kind = "base_domain" then
    (kindPassAux c.Checks o "domain" text (urlPassAux c.Checks o text [] (scan "url" text)).1
      [] (scan "domain" text)).2
  else
    (kindPassAux c.Checks o kind text (urlPassAux c.Checks o text [] (scan "url" text)).1
      [] (scan kind text)).1

/-- State-threaded view of `GetMatches`: the method receives its receiver
and returns it with the results.  The Go body performs no write to any
field of the receiver, which the returned first component records. -/
def GetMatchesM (c : Contextualizer) (o : Oracles) (kind : String) (ms : List String) :
    Contextualizer × List Match :=
  (c, GetMatches c o kind ms)

/-- State-threaded view of `ExtractAll`, as a map from result key to
sequence. -/
def ExtractAllM (c : Contextualizer) (o : Oracles)
    (scan : String → String → List (Nat × Nat)) (text : String) :
    Contextualizer × (String → List Match) :=
  (c, fun kind => ExtractAllKind c o scan text kind)

/-! ### Concrete fixtures for the example texts

The regex scans and the two external lookups are fixed here for the
concrete inputs exercised by the spec's examples; each records what the
external engine returns on those inputs. -/

/-- Modelled from the spec: the external eTLD+1 lookup of §4.6
(`publicsuffix.EffectiveTLDPlusOne`), for domains whose public suffix is
one of the plain TLDs `com`, `org`, `io` appearing in the examples: the
registrable domain is the last two labels; anything else is an error. -/
def pslOracle (d : String) : Option String :=
  if 2 ≤ (splitDot d).length ∧
      ((splitDot d).getLast? = some "com" ∨ (splitDot d).getLast? = some "org" ∨
        (splitDot d).getLast? = some "io") then
    some (joinDot ((splitDot d).drop ((splitDot d).length - 2)))
  else none

/-- Modelled from the spec: `url.Parse(u).Hostname()` (external `net/url`)
for the URLs appearing in the examples; `none` stands for a parse error,
which suppresses nothing. -/
def hostOracle (u : String) : Option String :=
  if u = "http://example.com/page" then some "example.com"
  else if u = "http://a.io" then some "a.io"
  else none

/-- The example oracles bundled. -/
def exOr : Oracles := ⟨pslOracle, hostOracle⟩

/-- Output of the external `regexp.FindAllStringIndex` for each pattern of
the table on the example texts (offsets checked against the patterns of
`NewContextualizer` by hand; kinds without a hit are absent). -/
def exampleScan (kind text : String) : List (Nat × Nat) :=
  if text = "http://example.com/page" then
    if kind = "url" then [(0, 23)]
    else if kind = "domain" then [(7, 18)]
    else if kind = "filepath" then [(7, 23)]
    else []
  else if text = "visit sub.test.org" then
    if kind = "domain" then [(6, 18)] else []
  else if text = "http://a.io http://a.io" then
    if kind = "url" then [(0, 11), (12, 23)]
    else if kind = "domain" then [(7, 11), (19, 23)]
    else []
  else if text = "http://A.io http://a.io" then
    if kind = "url" then [(0, 11), (12, 23)]
    else if kind = "domain" then [(7, 11), (19, 23)]
    else []
  else if text = "ftp.example.com/file" then
    if kind = "filepath" then [(0, 20)]
    else if kind = "domain" then [(0, 15)]
    else []
  else if text = "a.test.org b.test.org" then
    if kind = "domain" then [(0, 10), (11, 21)] else []
  else if text = "Example.COM EXAMPLE.com" then
    if kind = "domain" then [(0, 11), (12, 23)] else []
  else []

/-- The drop decision of the `GetMatches` switch as a function of the
de-duplication key alone (for every kind the decision depends only on the
case-folded candidate, because `isPrivateIP` is insensitive to case). -/
def dropsKey (ck : PrivateChecks) (o : Oracles) (kind k : String) : Bool :=
  filterDrops ck o kind k k

/-- The drop decision of the `ExtractAll` switch as a function of the
de-duplication key alone. -/
def eaDropsKey (ck : PrivateChecks) (kind k : String) : Bool :=
  eaFilterDrops ck kind k k

/-- An extractor with no suppression configured. -/
def cPlain : Contextualizer := NewContextualizer false [] []

/-- An extractor with private-IP suppression enabled. -/
def cIPs : Contextualizer := NewContextualizer true [] []

/-! ### Lemmas about the ASCII primitives -/

theorem toNat_ofNat_valid (n : Nat) (h : n.isValidChar) : (Char.ofNat n).toNat = n := by
  simp [Char.ofNat, dif_pos h, Char.ofNatAux, Char.toNat, UInt32.toNat, BitVec.toNat_ofNatLt]

theorem char_eq_iff_toNat (a b : Char) : a = b ↔ a.toNat = b.toNat := by
  constructor
  · rintro rfl; rfl
  · intro h
    apply Char.eq_of_val_eq
    exact UInt32.ext h

theorem lowerChar_toNat (c : Char) :
    (lowerChar c).toNat = if 65 ≤ c.toNat ∧ c.toNat ≤ 90 then c.toNat + 32 else c.toNat := by
  unfold lowerChar
  split
  · next h => exact toNat_ofNat_valid _ (Or.inl (by omega))
  · rfl

theorem lowerChar_idem (c : Char) : lowerChar (lowerChar c) = lowerChar c := by
  rw [char_eq_iff_toNat, lowerChar_toNat (lowerChar c), lowerChar_toNat c]
  split_ifs <;> omega

theorem goToLower_idem (s : String) : goToLower (goToLower s) = goToLower s := by
  unfold goToLower
  apply String.ext
  simp [List.map_map, Function.comp, lowerChar_idem]

theorem goToLower_eq_empty (s : String) : goToLower s = "" ↔ s = "" := by
  unfold goToLower
  constructor
  · intro h
    apply String.ext
    have hd : (⟨s.data.map lowerChar⟩ : String).data = ("" : String).data := by rw [h]
    simp at hd
    simp [hd]
  · rintro rfl; rfl

theorem isDigitC_lowerChar (c : Char) : isDigitC (lowerChar c) = isDigitC c := by
  unfold isDigitC
  rw [lowerChar_toNat]
  split_ifs with h
  · rw [decide_eq_decide]
    omega
  · rfl

theorem lowerChar_eq_dot (c : Char) : (lowerChar c = '.') ↔ (c = '.') := by
  rw [char_eq_iff_toNat, char_eq_iff_toNat, lowerChar_toNat]
  have hdot : ('.' : Char).toNat = 46 := by decide
  split_ifs with h <;> omega

theorem splitChar_ne_nil (sep : Char) (l : List Char) : splitChar sep l ≠ [] := by
  cases l with
  | nil => simp [splitChar]
  | cons c cs =>
    unfold splitChar
    cases h : splitChar sep cs with
    | nil => simp
    | cons a as =>
      by_cases hc : c = sep
      · simp [hc]
      · simp [hc]

theorem splitChar_map_lower (l : List Char) :
    splitChar '.' (l.map lowerChar) = (splitChar '.' l).map (List.map lowerChar) := by
  induction l with
  | nil => rfl
  | cons c cs ih =>
    cases h : splitChar '.' cs with
    | nil => exact absurd h (splitChar_ne_nil '.' cs)
    | cons a as =>
      simp only [List.map_cons, splitChar, ih, h]
      by_cases hc : c = '.'
      · simp [lowerChar_eq_dot, hc]
      · simp [lowerChar_eq_dot, hc]

theorem map_lowerChar_of_digits (l : List Char) (h : l.all isDigitC = true) :
    l.map lowerChar = l := by
  induction l with
  | nil => rfl
  | cons c cs ih =>
    simp only [List.all_cons, Bool.and_eq_true] at h
    have hc : lowerChar c = c := by
      unfold isDigitC at h
      have := of_decide_eq_true h.1
      unfold lowerChar
      rw [if_neg (by omega)]
    simp [hc, ih h.2]

theorem all_isDigitC_map_lower (l : List Char) :
    (l.map lowerChar).all isDigitC = l.all isDigitC := by
  induction l with
  | nil => rfl
  | cons c cs ih => simp [isDigitC_lowerChar, ih]

theorem parseOctet_map_lower (l : List Char) : parseOctet (l.map lowerChar) = parseOctet l := by
  cases h : l.all isDigitC with
  | true => rw [map_lowerChar_of_digits l h]
  | false =>
    unfold parseOctet
    rw [if_neg, if_neg]
    · rw [h]; simp
    · rw [all_isDigitC_map_lower, h]; simp

theorem parseIPv4_toLower (s : String) : parseIPv4 (goToLower s) = parseIPv4 s := by
  unfold parseIPv4 goToLower
  show (match (splitChar '.' (s.data.map lowerChar)).map parseOctet with
        | [some a, some b, some c, some d] => some (a, b, c, d)
        | _ => none) = _
  rw [splitChar_map_lower, List.map_map]
  have : parseOctet ∘ List.map lowerChar = parseOctet := by
    funext x
    exact parseOctet_map_lower x
  rw [this]

theorem isPrivateIP_toLower (s : String) : isPrivateIP (goToLower s) = isPrivateIP s := by
  unfold isPrivateIP
  rw [parseIPv4_toLower]

/-! ### Lemmas about the drop decisions and the pipeline steps -/

theorem containsStr_iff (l : List String) (a : String) : l.contains a = true ↔ a ∈ l := by
  simp [List.contains]

theorem goToLower_eq_empty_iff (s : String) : goToLower s = "" ↔ s = "" := by
  unfold goToLower
  constructor
  · intro h
    have hd : (⟨s.data.map lowerChar⟩ : String).data = ("" : String).data := by rw [h]
    simp only [List.map_eq_nil_iff] at hd
    exact String.ext (by simp [hd])
  · rintro rfl; rfl

theorem filterDrops_key (ck : PrivateChecks) (o : Oracles) (kind m1 : String) :
    filterDrops ck o kind m1 (goToLower m1) = dropsKey ck o kind (goToLower m1) := by
  unfold dropsKey filterDrops
  split_ifs <;> first
    | rfl
    | rw [isPrivateIP_toLower]

theorem eaFilterDrops_key (ck : PrivateChecks) (kind val : String) :
    eaFilterDrops ck kind val (goToLower val) = eaDropsKey ck kind (goToLower val) := by
  unfold eaDropsKey eaFilterDrops
  split_ifs <;> first
    | rfl
    | rw [isPrivateIP_toLower]

theorem goToLower_keyOf (kind m : String) : goToLower (keyOf kind m) = keyOf kind m := by
  unfold keyOf
  exact goToLower_idem _

theorem goToLower_finalVal (kind m : String) :
    goToLower (finalVal kind m) = keyOf kind m := by
  unfold finalVal
  split
  · exact goToLower_keyOf kind m
  · rfl

theorem finalVal_empty_iff (kind m : String) : finalVal kind m = "" ↔ keyOf kind m = "" := by
  unfold finalVal keyOf
  split
  · rfl
  · exact (goToLower_eq_empty_iff _).symm

theorem gm_nil (ck : PrivateChecks) (o : Oracles) (kind : String) (seen : List String) :
    getMatchesAux ck o kind seen [] = [] := rfl

theorem gm_cons (ck : PrivateChecks) (o : Oracles) (kind m : String) (seen ms : List String) :
    getMatchesAux ck o kind seen (m :: ms) =
      if seen.contains (keyOf kind m) then getMatchesAux ck o kind seen ms
      else if filterDrops ck o kind (norm1 kind m) (keyOf kind m) then
        getMatchesAux ck o kind seen ms
      else if finalVal kind m = "" then
        extrasOf ck o kind (keyOf kind m) ++ getMatchesAux ck o kind seen ms
      else
        extrasOf ck o kind (keyOf kind m) ++
          (⟨finalVal kind m, kind⟩ : Match) ::
            getMatchesAux ck o kind (keyOf kind m :: seen) ms := rfl

theorem gm_cons_seen (ck : PrivateChecks) (o : Oracles) (kind m : String)
    (seen ms : List String) (h : seen.contains (keyOf kind m) = true) :
    getMatchesAux ck o kind seen (m :: ms) = getMatchesAux ck o kind seen ms := by
  rw [gm_cons, if_pos h]

theorem gm_cons_filtered (ck : PrivateChecks) (o : Oracles) (kind m : String)
    (seen ms : List String) (h : seen.contains (keyOf kind m) = false)
    (hf : dropsKey ck o kind (keyOf kind m) = true) :
    getMatchesAux ck o kind seen (m :: ms) = getMatchesAux ck o kind seen ms := by
  rw [gm_cons, if_neg (ne_true_of_eq_false h),
    if_pos (by unfold keyOf; rw [filterDrops_key]; exact hf)]

theorem gm_cons_empty (ck : PrivateChecks) (o : Oracles) (kind m : String)
    (seen ms : List String) (h : seen.contains (keyOf kind m) = false)
    (hf : dropsKey ck o kind (keyOf kind m) = false) (he : finalVal kind m = "") :
    getMatchesAux ck o kind seen (m :: ms) =
      extrasOf ck o kind (keyOf kind m) ++ getMatchesAux ck o kind seen ms := by
  rw [gm_cons, if_neg (ne_true_of_eq_false h),
    if_neg (by unfold keyOf; rw [filterDrops_key]; exact ne_true_of_eq_false hf), if_pos he]

theorem gm_cons_app (ck : PrivateChecks) (o : Oracles) (kind m : String)
    (seen ms : List String) (h : seen.contains (keyOf kind m) = false)
    (hf : dropsKey ck o kind (keyOf kind m) = false) (he : finalVal kind m ≠ "") :
    getMatchesAux ck o kind seen (m :: ms) =
      extrasOf ck o kind (keyOf kind m) ++
        (⟨finalVal kind m, kind⟩ : Match) ::
          getMatchesAux ck o kind (keyOf kind m :: seen) ms := by
  rw [gm_cons, if_neg (ne_true_of_eq_false h),
    if_neg (by unfold keyOf; rw [filterDrops_key]; exact ne_true_of_eq_false hf), if_neg he]

theorem kp_nil (ck : PrivateChecks) (o : Oracles) (kind text : String)
    (ranges : List (Nat × Nat)) (seen : List String) :
    kindPassAux ck o kind text ranges seen [] = ([], []) := rfl

theorem kp_cons (ck : PrivateChecks) (o : Oracles) (kind text : String)
    (ranges : List (Nat × Nat)) (seen : List String) (p : Nat × Nat)
    (ps : List (Nat × Nat)) :
    kindPassAux ck o kind text ranges seen (p :: ps) =
      if containedInAny ranges p then kindPassAux ck o kind text ranges seen ps
      else if seen.contains (goToLower (slice text p)) then
        kindPassAux ck o kind text ranges seen ps
      else if eaFilterDrops ck kind (slice text p) (goToLower (slice text p)) then
        kindPassAux ck o kind text ranges seen ps
      else
        ((⟨slice text p, kind⟩ : Match) ::
            (kindPassAux ck o kind text ranges (goToLower (slice text p) :: seen) ps).1,
          extrasOf ck o kind (goToLower (slice text p)) ++
            (kindPassAux ck o kind text ranges (goToLower (slice text p) :: seen) ps).2) := rfl

theorem kp_cons_contained (ck : PrivateChecks) (o : Oracles) (kind text : String)
    (ranges : List (Nat × Nat)) (seen : List String) (p : Nat × Nat)
    (ps : List (Nat × Nat)) (h : containedInAny ranges p = true) :
    kindPassAux ck o kind text ranges seen (p :: ps) =
      kindPassAux ck o kind text ranges seen ps := by
  rw [kp_cons, if_pos h]

theorem kp_cons_seen (ck : PrivateChecks) (o : Oracles) (kind text : String)
    (ranges : List (Nat × Nat)) (seen : List String) (p : Nat × Nat)
    (ps : List (Nat × Nat)) (hc : containedInAny ranges p = false)
    (h : seen.contains (goToLower (slice text p)) = true) :
    kindPassAux ck o kind text ranges seen (p :: ps) =
      kindPassAux ck o kind text ranges seen ps := by
  rw [kp_cons, if_neg (ne_true_of_eq_false hc), if_pos h]

theorem kp_cons_filtered (ck : PrivateChecks) (o : Oracles) (kind text : String)
    (ranges : List (Nat × Nat)) (seen : List String) (p : Nat × Nat)
    (ps : List (Nat × Nat)) (hc : containedInAny ranges p = false)
    (h : seen.contains (goToLower (slice text p)) = false)
    (hf : eaDropsKey ck kind (goToLower (slice text p)) = true) :
    kindPassAux ck o kind text ranges seen (p :: ps) =
      kindPassAux ck o kind text ranges seen ps := by
  rw [kp_cons, if_neg (ne_true_of_eq_false hc), if_neg (ne_true_of_eq_false h),
    if_pos (by rw [eaFilterDrops_key]; exact hf)]

theorem kp_cons_app (ck : PrivateChecks) (o : Oracles) (kind text : String)
    (ranges : List (Nat × Nat)) (seen : List String) (p : Nat × Nat)
    (ps : List (Nat × Nat)) (hc : containedInAny ranges p = false)
    (h : seen.contains (goToLower (slice text p)) = false)
    (hf : eaDropsKey ck kind (goToLower (slice text p)) = false) :
    kindPassAux ck o kind text ranges seen (p :: ps) =
      ((⟨slice text p, kind⟩ : Match) ::
          (kindPassAux ck o kind text ranges (goToLower (slice text p) :: seen) ps).1,
        extrasOf ck o kind (goToLower (slice text p)) ++
          (kindPassAux ck o kind text ranges (goToLower (slice text p) :: seen) ps).2) := by
  rw [kp_cons, if_neg (ne_true_of_eq_false hc), if_neg (ne_true_of_eq_false h),
    if_neg (by rw [eaFilterDrops_key]; exact ne_true_of_eq_false hf)]

theorem up_nil (ck : PrivateChecks) (o : Oracles) (text : String) (seen : List String) :
    urlPassAux ck o text seen [] = ([], []) := rfl

theorem up_cons (ck : PrivateChecks) (o : Oracles) (text : String) (seen : List String)
    (p : Nat × Nat) (ps : List (Nat × Nat)) :
    urlPassAux ck o text seen (p :: ps) =
      if hostDrops ck o (goToLower (trimUrlMatch (slice text p))) then
        urlPassAux ck o text seen ps
      else if seen.contains (goToLower (trimUrlMatch (slice text p))) then
        urlPassAux ck o text seen ps
      else
        (p :: (urlPassAux ck o text (goToLower (trimUrlMatch (slice text p)) :: seen) ps).1,
          (⟨trimUrlMatch (slice text p), "url"⟩ : Match) ::
            (urlPassAux ck o text (goToLower (trimUrlMatch (slice text p)) :: seen) ps).2) := rfl

theorem contains_false_iff (l : List String) (a : String) : l.contains a = false ↔ a ∉ l := by
  constructor
  · intro h hm
    rw [(containsStr_iff l a).mpr hm] at h
    cases h
  · intro h
    cases hb : l.contains a with
    | false => rfl
    | true => exact absurd ((containsStr_iff l a).mp hb) h

theorem suffixWalk_iff (ign ls : List String) :
    suffixWalk ign ls = true ↔ ∃ t, t <:+ ls ∧ t ≠ [] ∧ joinDot t ∈ ign := by
  induction ls with
  | nil =>
    simp only [suffixWalk, List.suffix_nil]
    constructor
    · intro h; cases h
    · rintro ⟨t, rfl, hne, -⟩
      exact absurd rfl hne
  | cons l ls ih =>
    simp only [suffixWalk, Bool.or_eq_true, containsStr_iff, ih]
    constructor
    · rintro (h | ⟨t, ht, hne, hmem⟩)
      · exact ⟨l :: ls, List.suffix_refl _, by simp, h⟩
      · exact ⟨t, ht.trans (List.suffix_cons l ls), hne, hmem⟩
    · rintro ⟨t, ht, hne, hmem⟩
      rcases List.suffix_cons_iff.mp ht with h | h
      · left
        rw [← h]
        exact hmem
      · right
        exact ⟨t, h, hne, hmem⟩

theorem extrasOf_mem (ck : PrivateChecks) (o : Oracles) (kind k : String) (m : Match)
    (hm : m ∈ extrasOf ck o kind k) : m.Ty = "base_domain" ∧ kind = "domain" := by
  unfold extrasOf at hm
  split at hm
  · next hk =>
    unfold baseExtras at hm
    split at hm
    · split at hm
      · rcases List.mem_singleton.mp hm with rfl
        exact ⟨rfl, hk⟩
      · cases hm
    · cases hm
  · cases hm

theorem extrasOf_filter_nil (ck : PrivateChecks) (o : Oracles) (kind k : String) :
    (extrasOf ck o kind k).filter (fun m => m.Ty == kind) = [] := by
  rw [List.filter_eq_nil_iff]
  intro m hm
  obtain ⟨hb, hd⟩ := extrasOf_mem ck o kind k m hm
  subst hd
  rw [hb]
  decide

theorem gm_sound (ck : PrivateChecks) (o : Oracles) (kind : String) :
    ∀ (ms seen : List String) (m : Match), m ∈ getMatchesAux ck o kind seen ms →
      m.Ty = kind →
      ∃ ms1 x ms2, ms = ms1 ++ x :: ms2 ∧ m.Value = finalVal kind x ∧
        finalVal kind x ≠ "" ∧ keyOf kind x ∉ seen ∧
        dropsKey ck o kind (keyOf kind x) = false ∧
        ∀ y ∈ ms1, keyOf kind y ≠ keyOf kind x := by
  intro ms
  induction ms with
  | nil =>
    intro seen m hm
    rw [gm_nil] at hm
    cases hm
  | cons a ms ih =>
    intro seen m hm hty
    cases hs : seen.contains (keyOf kind a) with
    | true =>
      rw [gm_cons_seen ck o kind a seen ms hs] at hm
      obtain ⟨ms1, x, ms2, heq, hv, hne, hnseen, hdrop, hfirst⟩ := ih seen m hm hty
      refine ⟨a :: ms1, x, ms2, by rw [heq, List.cons_append], hv, hne, hnseen, hdrop, ?_⟩
      intro y hy
      rcases List.mem_cons.mp hy with rfl | hy'
      · intro hk
        exact hnseen (hk ▸ (containsStr_iff seen (keyOf kind y)).mp hs)
      · exact hfirst y hy'
    | false =>
      cases hf : dropsKey ck o kind (keyOf kind a) with
      | true =>
        rw [gm_cons_filtered ck o kind a seen ms hs hf] at hm
        obtain ⟨ms1, x, ms2, heq, hv, hne, hnseen, hdrop, hfirst⟩ := ih seen m hm hty
        refine ⟨a :: ms1, x, ms2, by rw [heq, List.cons_append], hv, hne, hnseen, hdrop, ?_⟩
        intro y hy
        rcases List.mem_cons.mp hy with rfl | hy'
        · intro hk
          rw [hk, hdrop] at hf
          cases hf
        · exact hfirst y hy'
      | false =>
        by_cases he : finalVal kind a = ""
        · rw [gm_cons_empty ck o kind a seen ms hs hf he] at hm
          rcases List.mem_append.mp hm with hex | hrest
          · obtain ⟨hb, hd⟩ := extrasOf_mem ck o kind (keyOf kind a) m hex
            rw [hty] at hb
            exact absurd (hb.symm.trans hd) (by decide)
          · obtain ⟨ms1, x, ms2, heq, hv, hne, hnseen, hdrop, hfirst⟩ := ih seen m hrest hty
            refine ⟨a :: ms1, x, ms2, by rw [heq, List.cons_append], hv, hne, hnseen, hdrop, ?_⟩
            intro y hy
            rcases List.mem_cons.mp hy with rfl | hy'
            · intro hk
              have hkey : keyOf kind y = "" := (finalVal_empty_iff kind y).mp he
              rw [hk] at hkey
              exact hne ((finalVal_empty_iff kind x).mpr hkey)
            · exact hfirst y hy'
        · rw [gm_cons_app ck o kind a seen ms hs hf he] at hm
          rcases List.mem_append.mp hm with hex | hrest
          · obtain ⟨hb, hd⟩ := extrasOf_mem ck o kind (keyOf kind a) m hex
            rw [hty] at hb
            exact absurd (hb.symm.trans hd) (by decide)
          · rcases List.mem_cons.mp hrest with rfl | htail
            · exact ⟨[], a, ms, rfl, rfl, he, (contains_false_iff seen (keyOf kind a)).mp hs,
                hf, by intro y hy; cases hy⟩
            · obtain ⟨ms1, x, ms2, heq, hv, hne, hnseen, hdrop, hfirst⟩ :=
                ih (keyOf kind a :: seen) m htail hty
              have hx : keyOf kind x ∉ seen := fun hmem => hnseen (List.mem_cons_of_mem _ hmem)
              have hxa : keyOf kind x ≠ keyOf kind a := fun hk =>
                hnseen (hk ▸ List.mem_cons_self _ _)
              refine ⟨a :: ms1, x, ms2, by rw [heq, List.cons_append], hv, hne, hx, hdrop, ?_⟩
              intro y hy
              rcases List.mem_cons.mp hy with rfl | hy'
              · exact fun hk => hxa hk.symm
              · exact hfirst y hy'

theorem gm_key_not_seen (ck : PrivateChecks) (o : Oracles) (kind : String)
    (ms seen : List String) (m : Match) (hm : m ∈ getMatchesAux ck o kind seen ms)
    (hty : m.Ty = kind) : goToLower m.Value ∉ seen := by
  obtain ⟨ms1, x, ms2, -, hv, -, hnseen, -, -⟩ := gm_sound ck o kind ms seen m hm hty
  rw [hv, goToLower_finalVal]
  exact hnseen

theorem gm_pairwise (ck : PrivateChecks) (o : Oracles) (kind : String) :
    ∀ ms seen : List String,
      ((getMatchesAux ck o kind seen ms).filter (fun m => m.Ty == kind)).Pairwise
        (fun a b => goToLower a.Value ≠ goToLower b.Value) := by
  intro ms
  induction ms with
  | nil =>
    intro seen
    rw [gm_nil]
    exact List.Pairwise.nil
  | cons a ms ih =>
    intro seen
    cases hs : seen.contains (keyOf kind a) with
    | true =>
      rw [gm_cons_seen ck o kind a seen ms hs]
      exact ih seen
    | false =>
      cases hf : dropsKey ck o kind (keyOf kind a) with
      | true =>
        rw [gm_cons_filtered ck o kind a seen ms hs hf]
        exact ih seen
      | false =>
        by_cases he : finalVal kind a = ""
        · rw [gm_cons_empty ck o kind a seen ms hs hf he, List.filter_append,
            extrasOf_filter_nil, List.nil_append]
          exact ih seen
        · rw [gm_cons_app ck o kind a seen ms hs hf he, List.filter_append,
            extrasOf_filter_nil, List.nil_append, List.filter_cons,
            if_pos (by simp)]
          refine List.Pairwise.cons ?_ (ih (keyOf kind a :: seen))
          intro b hb
          have hbmem := List.mem_filter.mp hb
          have hbty : b.Ty = kind := by simpa using hbmem.2
          have hnotseen :=
            gm_key_not_seen ck o kind ms (keyOf kind a :: seen) b hbmem.1 hbty
          show goToLower (finalVal kind a) ≠ goToLower b.Value
          rw [goToLower_finalVal]
          intro hk
          exact hnotseen (hk ▸ List.mem_cons_self _ _)

theorem kp_sound (ck : PrivateChecks) (o : Oracles) (kind text : String)
    (ranges : List (Nat × Nat)) :
    ∀ (ps : List (Nat × Nat)) (seen : List String) (m : Match),
      m ∈ (kindPassAux ck o kind text ranges seen ps).1 →
      ∃ ps1 p ps2, ps = ps1 ++ p :: ps2 ∧ m = ⟨slice text p, kind⟩ ∧
        containedInAny ranges p = false ∧ goToLower (slice text p) ∉ seen ∧
        eaDropsKey ck kind (goToLower (slice text p)) = false ∧
        ∀ q ∈ ps1, containedInAny ranges q = false →
          goToLower (slice text q) ≠ goToLower (slice text p) := by
  intro ps
  induction ps with
  | nil =>
    intro seen m hm
    rw [kp_nil] at hm
    cases hm
  | cons a ps ih =>
    intro seen m hm
    cases hc : containedInAny ranges a with
    | true =>
      rw [kp_cons_contained ck o kind text ranges seen a ps hc] at hm
      obtain ⟨ps1, p, ps2, heq, hv, hcp, hnseen, hdrop, hfirst⟩ := ih seen m hm
      refine ⟨a :: ps1, p, ps2, by rw [heq, List.cons_append], hv, hcp, hnseen, hdrop, ?_⟩
      intro q hq hqc
      rcases List.mem_cons.mp hq with rfl | hq'
      · rw [hc] at hqc
        cases hqc
      · exact hfirst q hq' hqc
    | false =>
      cases hs : seen.contains (goToLower (slice text a)) with
      | true =>
        rw [kp_cons_seen ck o kind text ranges seen a ps hc hs] at hm
        obtain ⟨ps1, p, ps2, heq, hv, hcp, hnseen, hdrop, hfirst⟩ := ih seen m hm
        refine ⟨a :: ps1, p, ps2, by rw [heq, List.cons_append], hv, hcp, hnseen, hdrop, ?_⟩
        intro q hq hqc
        rcases List.mem_cons.mp hq with rfl | hq'
        · intro hk
          exact hnseen (hk ▸ (containsStr_iff seen (goToLower (slice text q))).mp hs)
        · exact hfirst q hq' hqc
      | false =>
        cases hf : eaDropsKey ck kind (goToLower (slice text a)) with
        | true =>
          rw [kp_cons_filtered ck o kind text ranges seen a ps hc hs hf] at hm
          obtain ⟨ps1, p, ps2, heq, hv, hcp, hnseen, hdrop, hfirst⟩ := ih seen m hm
          refine ⟨a :: ps1, p, ps2, by rw [heq, List.cons_append], hv, hcp, hnseen, hdrop, ?_⟩
          intro q hq hqc
          rcases List.mem_cons.mp hq with rfl | hq'
          · intro hk
            rw [hk, hdrop] at hf
            cases hf
          · exact hfirst q hq' hqc
        | false =>
          rw [kp_cons_app ck o kind text ranges seen a ps hc hs hf] at hm
          rcases List.mem_cons.mp hm with rfl | htail
          · exact ⟨[], a, ps, rfl, rfl, hc,
              (contains_false_iff seen (goToLower (slice text a))).mp hs, hf,
              by intro q hq; cases hq⟩
          · obtain ⟨ps1, p, ps2, heq, hv, hcp, hnseen, hdrop, hfirst⟩ :=
              ih (goToLower (slice text a) :: seen) m htail
            have hx : goToLower (slice text p) ∉ seen := fun hmem =>
              hnseen (List.mem_cons_of_mem _ hmem)
            have hxa : goToLower (slice text p) ≠ goToLower (slice text a) := fun hk =>
              hnseen (hk ▸ List.mem_cons_self _ _)
            refine ⟨a :: ps1, p, ps2, by rw [heq, List.cons_append], hv, hcp, hx, hdrop, ?_⟩
            intro q hq hqc
            rcases List.mem_cons.mp hq with rfl | hq'
            · exact fun hk => hxa hk.symm
            · exact hfirst q hq' hqc

theorem kp_key_not_seen (ck : PrivateChecks) (o : Oracles) (kind text : String)
    (ranges : List (Nat × Nat)) (ps : List (Nat × Nat)) (seen : List String) (m : Match)
    (hm : m ∈ (kindPassAux ck o kind text ranges seen ps).1) :
    goToLower m.Value ∉ seen := by
  obtain ⟨ps1, p, ps2, -, hv, -, hnseen, -, -⟩ := kp_sound ck o kind text ranges ps seen m hm
  rw [hv]
  exact hnseen

theorem kp_pairwise (ck : PrivateChecks) (o : Oracles) (kind text : String)
    (ranges : List (Nat × Nat)) :
    ∀ (ps : List (Nat × Nat)) (seen : List String),
      (kindPassAux ck o kind text ranges seen ps).1.Pairwise
        (fun a b => goToLower a.Value ≠ goToLower b.Value) := by
  intro ps
  induction ps with
  | nil =>
    intro seen
    rw [kp_nil]
    exact List.Pairwise.nil
  | cons a ps ih =>
    intro seen
    cases hc : containedInAny ranges a with
    | true =>
      rw [kp_cons_contained ck o kind text ranges seen a ps hc]
      exact ih seen
    | false =>
      cases hs : seen.contains (goToLower (slice text a)) with
      | true =>
        rw [kp_cons_seen ck o kind text ranges seen a ps hc hs]
        exact ih seen
      | false =>
        cases hf : eaDropsKey ck kind (goToLower (slice text a)) with
        | true =>
          rw [kp_cons_filtered ck o kind text ranges seen a ps hc hs hf]
          exact ih seen
        | false =>
          rw [kp_cons_app ck o kind text ranges seen a ps hc hs hf]
          refine List.Pairwise.cons ?_ (ih (goToLower (slice text a) :: seen))
          intro b hb
          have hnotseen :=
            kp_key_not_seen ck o kind text ranges ps (goToLower (slice text a) :: seen) b hb
          show goToLower (slice text a) ≠ goToLower b.Value
          intro hk
          exact hnotseen (hk ▸ List.mem_cons_self _ _)

theorem up_sound (ck : PrivateChecks) (o : Oracles) (text : String) :
    ∀ (ps : List (Nat × Nat)) (seen : List String) (m : Match),
      m ∈ (urlPassAux ck o text seen ps).2 →
      ∃ p ∈ ps, m = ⟨trimUrlMatch (slice text p), "url"⟩ := by
  intro ps
  induction ps with
  | nil =>
    intro seen m hm
    rw [up_nil] at hm
    cases hm
  | cons a ps ih =>
    intro seen m hm
    rw [up_cons] at hm
    split at hm
    · obtain ⟨p, hp, hv⟩ := ih seen m hm
      exact ⟨p, List.mem_cons_of_mem a hp, hv⟩
    · split at hm
      · obtain ⟨p, hp, hv⟩ := ih seen m hm
        exact ⟨p, List.mem_cons_of_mem a hp, hv⟩
      · rcases List.mem_cons.mp hm with rfl | htail
        · exact ⟨a, List.mem_cons_self a ps, rfl⟩
        · obtain ⟨p, hp, hv⟩ := ih _ m htail
          exact ⟨p, List.mem_cons_of_mem a hp, hv⟩

theorem up_zip (ck : PrivateChecks) (o : Oracles) (text : String) :
    ∀ (ps : List (Nat × Nat)) (seen : List String),
      (urlPassAux ck o text seen ps).1.length = (urlPassAux ck o text seen ps).2.length ∧
      ∀ rm ∈ (urlPassAux ck o text seen ps).1.zip (urlPassAux ck o text seen ps).2,
        rm.2 = ⟨trimUrlMatch (slice text rm.1), "url"⟩ ∧ rm.1 ∈ ps := by
  intro ps
  induction ps with
  | nil =>
    intro seen
    rw [up_nil]
    exact ⟨rfl, by intro rm hrm; cases hrm⟩
  | cons a ps ih =>
    intro seen
    rw [up_cons]
    split
    · obtain ⟨hlen, hzip⟩ := ih seen
      refine ⟨hlen, ?_⟩
      intro rm hrm
      obtain ⟨hv, hp⟩ := hzip rm hrm
      exact ⟨hv, List.mem_cons_of_mem a hp⟩
    · split
      · obtain ⟨hlen, hzip⟩ := ih seen
        refine ⟨hlen, ?_⟩
        intro rm hrm
        obtain ⟨hv, hp⟩ := hzip rm hrm
        exact ⟨hv, List.mem_cons_of_mem a hp⟩
      · obtain ⟨hlen, hzip⟩ := ih (goToLower (trimUrlMatch (slice text a)) :: seen)
        refine ⟨by simp [hlen], ?_⟩
        intro rm hrm
        rw [List.zip_cons_cons] at hrm
        rcases List.mem_cons.mp hrm with rfl | htail
        · exact ⟨rfl, List.mem_cons_self a ps⟩
        · obtain ⟨hv, hp⟩ := hzip rm htail
          exact ⟨hv, List.mem_cons_of_mem a hp⟩

theorem containedInAny_iff (R : List (Nat × Nat)) (p : Nat × Nat) :
    containedInAny R p = true ↔ ∃ r ∈ R, r.1 ≤ p.1 ∧ p.2 ≤ r.2 := by
  unfold containedInAny
  simp [List.any_eq_true]

/-! ### Claim theorems -/

/-- C1: the domain-ignore check returns true for a domain `d` exactly when,
after case-folding and stripping one trailing dot, some dot-separated
suffix of `d` (repeatedly dropping the leftmost label) is in the
ignored-domain set; with `example.com` in the set it accepts
`sub.example.com` and `a.b.example.com` but, for the set holding only
`example.com`, not `notexample.com`. -/
theorem c1_domain_ignore_spec (ck ck2 : PrivateChecks) (d : String)
    (h : "example.com" ∈ ck2.IgnoredDomains) :
    (isDomainIgnored ck d = true ↔
      ∃ t, t <:+ splitDot (trimDotEnd (goToLower d)) ∧ t ≠ [] ∧
        joinDot t ∈ ck.IgnoredDomains) ∧
    isDomainIgnored ck2 "sub.example.com" = true ∧
    isDomainIgnored ck2 "a.b.example.com" = true ∧
    isDomainIgnored ⟨false, ["example.com"], []⟩ "notexample.com" = false := by
  refine ⟨suffixWalk_iff ck.IgnoredDomains _, ?_, ?_, by decide⟩
  · apply (suffixWalk_iff ck2.IgnoredDomains _).mpr
    refine ⟨["example", "com"], ?_, by simp, ?_⟩
    · rw [show splitDot (trimDotEnd (goToLower "sub.example.com")) =
          ["sub", "example", "com"] from by decide]
      exact ⟨["sub"], rfl⟩
    · rw [show joinDot ["example", "com"] = "example.com" from by decide]
      exact h
  · apply (suffixWalk_iff ck2.IgnoredDomains _).mpr
    refine ⟨["example", "com"], ?_, by simp, ?_⟩
    · rw [show splitDot (trimDotEnd (goToLower "a.b.example.com")) =
          ["a", "b", "example", "com"] from by decide]
      exact ⟨["a", "b"], rfl⟩
    · rw [show joinDot ["example", "com"] = "example.com" from by decide]
      exact h

/-- Witness for C1 at the ignore set holding only `example.com`. -/
theorem c1_domain_ignore_spec_w :
    isDomainIgnored ⟨false, ["example.com"], []⟩ "sub.example.com" = true ∧
    isDomainIgnored ⟨false, ["example.com"], []⟩ "a.b.example.com" = true ∧
    isDomainIgnored ⟨false, ["example.com"], []⟩ "notexample.com" = false :=
  (c1_domain_ignore_spec ⟨false, [], []⟩ ⟨false, ["example.com"], []⟩ "x"
    (by decide)).2

/-- C2: ExtractAll claims URL ranges first (each surviving URL match
records its own offset range), and a candidate of another kind is dropped
by the overlap rule exactly when its range is fully contained in a claimed
range, before the per-kind filters and de-duplication run; consequently
the text holding only `http://example.com/page` produces no `domain`,
`filepath` or `base_domain` match. -/
theorem c2_url_overlap (ck : PrivateChecks) (o : Oracles) (kind text : String)
    (R : List (Nat × Nat)) (p : Nat × Nat) (ps : List (Nat × Nat)) (seen : List String) :
    (containedInAny R p = true ↔ ∃ r ∈ R, r.1 ≤ p.1 ∧ p.2 ≤ r.2) ∧
    (containedInAny R p = true →
      kindPassAux ck o kind text R seen (p :: ps) = kindPassAux ck o kind text R seen ps) ∧
    (containedInAny R p = false → seen.contains (goToLower (slice text p)) = false →
      eaDropsKey ck kind (goToLower (slice text p)) = false →
      (kindPassAux ck o kind text R seen (p :: ps)).1 =
        (⟨slice text p, kind⟩ : Match) ::
          (kindPassAux ck o kind text R (goToLower (slice text p) :: seen) ps).1) ∧
    ((urlPassAux ck o text seen ps).1.length = (urlPassAux ck o text seen ps).2.length) ∧
    (∀ rm ∈ (urlPassAux ck o text seen ps).1.zip (urlPassAux ck o text seen ps).2,
      rm.2 = ⟨trimUrlMatch (slice text rm.1), "url"⟩ ∧ rm.1 ∈ ps) ∧
    ExtractAllKind cPlain exOr exampleScan "http://example.com/page" "url" =
      [⟨"http://example.com/page", "url"⟩] ∧
    ExtractAllKind cPlain exOr exampleScan "http://example.com/page" "domain" = [] ∧
    ExtractAllKind cPlain exOr exampleScan "http://example.com/page" "filepath" = [] ∧
    ExtractAllKind cPlain exOr exampleScan "http://example.com/page" "base_domain" = [] := by
  refine ⟨containedInAny_iff R p, fun h => kp_cons_contained ck o kind text R seen p ps h,
    fun hc hs hf => ?_, (up_zip ck o text ps seen).1, (up_zip ck o text ps seen).2,
    by decide, by decide, by decide, by decide⟩
  rw [kp_cons_app ck o kind text R seen p ps hc hs hf]

/-- Witness for C2 at a concrete contained and a concrete surviving
candidate. -/
theorem c2_url_overlap_w :
    kindPassAux cPlain.Checks exOr "md5" "abcd" [(0, 4)] [] [(1, 3)] =
      kindPassAux cPlain.Checks exOr "md5" "abcd" [(0, 4)] [] [] ∧
    (kindPassAux cPlain.Checks exOr "md5" "abcd" [(2, 3)] [] [(0, 2)]).1 =
      (⟨"ab", "md5"⟩ : Match) ::
        (kindPassAux cPlain.Checks exOr "md5" "abcd" [(2, 3)] [goToLower "ab"] []).1 := by
  constructor
  · exact (c2_url_overlap cPlain.Checks exOr "md5" "abcd" [(0, 4)] (1, 3) [] []).2.1
      (by decide)
  · have h := (c2_url_overlap cPlain.Checks exOr "md5" "abcd" [(2, 3)] (0, 2) [] []).2.2.1
      (by decide) (by decide) (by decide)
    rw [show slice "abcd" (0, 2) = "ab" from by decide] at h
    exact h

/-- C8: the pattern table and the filter configuration are unchanged by
every extraction call, and re-running either entry point on the extractor
returned by a first call yields the same results. -/
theorem c8_purity (c : Contextualizer) (o : Oracles) (kind text : String)
    (ms : List String) (scan : String → String → List (Nat × Nat)) :
    (GetMatchesM c o kind ms).1 = c ∧
    (ExtractAllM c o scan text).1 = c ∧
    (GetMatchesM (GetMatchesM c o kind ms).1 o kind ms).2 = (GetMatchesM c o kind ms).2 ∧
    (∀ k, (ExtractAllM (ExtractAllM c o scan text).1 o scan text).2 k =
      (ExtractAllM c o scan text).2 k) :=
  ⟨rfl, rfl, rfl, fun _ => rfl⟩

/-- C9: `base_domain` entries are not de-duplicated — two distinct domains
with the same base yield the base twice — and in `GetMatches` each base
entry immediately precedes its contributing domain match. -/
theorem c9_base_dup :
    GetMatches cPlain exOr "domain" ["a.test.org", "b.test.org"] =
      [⟨"test.org", "base_domain"⟩, ⟨"a.test.org", "domain"⟩,
        ⟨"test.org", "base_domain"⟩, ⟨"b.test.org", "domain"⟩] ∧
    ExtractAllKind cPlain exOr exampleScan "a.test.org b.test.org" "base_domain" =
      [⟨"test.org", "base_domain"⟩, ⟨"test.org", "base_domain"⟩] ∧
    ExtractAllKind cPlain exOr exampleScan "a.test.org b.test.org" "domain" =
      [⟨"a.test.org", "domain"⟩, ⟨"b.test.org", "domain"⟩] := by decide

/-- C10: in ExtractAll only the first surviving occurrence of a URL claims
a range; on the text holding the same URL twice the second occurrence
claims nothing, the domain candidate inside the first occurrence is
containment-suppressed without entering the seen set, and the identical
candidate inside the second occurrence is reported. -/
theorem c10_second_url :
    (urlPassAux cPlain.Checks exOr "http://a.io http://a.io" []
        (exampleScan "url" "http://a.io http://a.io")).1 = [(0, 11)] ∧
    ExtractAllKind cPlain exOr exampleScan "http://a.io http://a.io" "url" =
      [⟨"http://a.io", "url"⟩] ∧
    ExtractAllKind cPlain exOr exampleScan "http://a.io http://a.io" "domain" =
      [⟨"a.io", "domain"⟩] ∧
    containedInAny [(0, 11)] (7, 11) = true ∧
    containedInAny [(0, 11)] (19, 23) = false ∧
    slice "http://a.io http://a.io" (7, 11) = slice "http://a.io http://a.io" (19, 23) := by
  decide

/-- C3 counterexample: the `ftp`-prefixed filepath candidate
`ftp.example.com/file` is discarded by `GetMatches` but survives
`ExtractAll`, so the multi-kind path does not apply the same filepath
prefix filter as the single-kind path. -/
theorem c3_cex :
    goToLower "ftp.example.com/file" = "ftp.example.com/file" ∧
    startsWithStr "ftp.example.com/file" "ftp" = true ∧
    GetMatches cPlain exOr "filepath" ["ftp.example.com/file"] = [] ∧
    ExtractAllKind cPlain exOr exampleScan "ftp.example.com/file" "filepath" =
      [⟨"ftp.example.com/file", "filepath"⟩] := by decide

/-- C3 (amended): `GetMatches` discards a filepath candidate whose
case-folded value begins with `http`, `www` or `ftp`; `ExtractAll`
discards only those beginning with `http` or `www`, so an `ftp`-prefixed
filepath survives the multi-kind path. -/
theorem c3_filepath_amended (ck : PrivateChecks) (o : Oracles) (m text : String)
    (seen ms : List String) (R : List (Nat × Nat)) (p : Nat × Nat)
    (ps : List (Nat × Nat)) :
    (dropsKey ck o "filepath" (goToLower m) =
      (startsWithStr (goToLower m) "http" || startsWithStr (goToLower m) "www" ||
        startsWithStr (goToLower m) "ftp")) ∧
    (eaDropsKey ck "filepath" (goToLower (slice text p)) =
      (startsWithStr (goToLower (slice text p)) "http" ||
        startsWithStr (goToLower (slice text p)) "www")) ∧
    (seen.contains (goToLower m) = false →
      (startsWithStr (goToLower m) "http" || startsWithStr (goToLower m) "www" ||
          startsWithStr (goToLower m) "ftp") = true →
      getMatchesAux ck o "filepath" seen (m :: ms) =
        getMatchesAux ck o "filepath" seen ms) ∧
    (containedInAny R p = false → seen.contains (goToLower (slice text p)) = false →
      (startsWithStr (goToLower (slice text p)) "http" ||
          startsWithStr (goToLower (slice text p)) "www") = false →
      (kindPassAux ck o "filepath" text R seen (p :: ps)).1 =
        (⟨slice text p, "filepath"⟩ : Match) ::
          (kindPassAux ck o "filepath" text R
            (goToLower (slice text p) :: seen) ps).1) ∧
    GetMatches cPlain exOr "filepath" ["ftp.example.com/file"] = [] ∧
    ExtractAllKind cPlain exOr exampleScan "ftp.example.com/file" "filepath" =
      [⟨"ftp.example.com/file", "filepath"⟩] := by
  refine ⟨rfl, rfl, ?_, ?_, by decide, by decide⟩
  · intro hs hp
    exact gm_cons_filtered ck o "filepath" m seen ms hs
      (show dropsKey ck o "filepath" (keyOf "filepath" m) = true from hp)
  · intro hc hs hf
    rw [kp_cons_app ck o "filepath" text R seen p ps hc hs
      (show eaDropsKey ck "filepath" (goToLower (slice text p)) = false from hf)]

/-- Witness for C3 (amended) at the `ftp`-prefixed candidate. -/
theorem c3_filepath_amended_w :
    getMatchesAux cPlain.Checks exOr "filepath" [] ["ftp.example.com/file"] =
      getMatchesAux cPlain.Checks exOr "filepath" [] [] ∧
    (kindPassAux cPlain.Checks exOr "filepath" "ftp.example.com/file" [] [] [(0, 20)]).1 =
      (⟨slice "ftp.example.com/file" (0, 20), "filepath"⟩ : Match) ::
        (kindPassAux cPlain.Checks exOr "filepath" "ftp.example.com/file" []
          [goToLower (slice "ftp.example.com/file" (0, 20))] []).1 :=
  ⟨(c3_filepath_amended cPlain.Checks exOr "ftp.example.com/file" "x" [] [] [] (0, 0)
      []).2.2.1 (by decide) (by decide),
    (c3_filepath_amended cPlain.Checks exOr "x" "ftp.example.com/file" [] [] [] (0, 20)
      []).2.2.2.1 (by decide) (by decide) (by decide)⟩

/-- C4: `GetMatches` emits the case-folded value for the `domain` and
`email` kinds and the (trimmed) original-casing value for every other
kind, while `ExtractAll` stores the original source casing for every
matched kind; de-duplication is by case-folded key in both paths. -/
theorem c4_casing (c : Contextualizer) (o : Oracles) (kind text : String)
    (ms seen : List String) (R : List (Nat × Nat)) (ps : List (Nat × Nat)) :
    (∀ x : String, finalVal kind x =
      if kind = "domain" ∨ kind = "email" then goToLower (norm1 kind x)
      else norm1 kind x) ∧
    (∀ m ∈ GetMatches c o kind ms, m.Ty = kind → ∃ x ∈ ms, m.Value = finalVal kind x) ∧
    (∀ m ∈ (kindPassAux c.Checks o kind text R seen ps).1,
      m.Ty = kind ∧ ∃ p ∈ ps, m.Value = slice text p) ∧
    (∀ m ∈ (urlPassAux c.Checks o text seen ps).2,
      m.Ty = "url" ∧ ∃ p ∈ ps, m.Value = trimUrlMatch (slice text p)) ∧
    GetMatches cPlain exOr "domain" ["Example.COM", "EXAMPLE.com"] =
      [⟨"example.com", "domain"⟩] ∧
    GetMatches cPlain exOr "email" ["Dev@Example.COM"] =
      [⟨"dev@example.com", "email"⟩] ∧
    ExtractAllKind cPlain exOr exampleScan "Example.COM EXAMPLE.com" "domain" =
      [⟨"Example.COM", "domain"⟩] := by
  refine ⟨fun x => rfl, ?_, ?_, ?_, by decide, by decide, by decide⟩
  · intro m hm hty
    obtain ⟨ms1, x, ms2, heq, hv, -, -, -, -⟩ :=
      gm_sound c.Checks o kind ms [] m hm hty
    exact ⟨x, by rw [heq]; exact List.mem_append_right ms1 (List.mem_cons_self x ms2), hv⟩
  · intro m hm
    obtain ⟨ps1, p, ps2, heq, hv, -, -, -, -⟩ :=
      kp_sound c.Checks o kind text R ps seen m hm
    have hp : p ∈ ps := by
      rw [heq]
      exact List.mem_append_right ps1 (List.mem_cons_self p ps2)
    exact ⟨by rw [hv], p, hp, by rw [hv]⟩
  · intro m hm
    obtain ⟨p, hp, hv⟩ := up_sound c.Checks o text ps seen m hm
    exact ⟨by rw [hv], p, hp, by rw [hv]⟩

/-- Witness for C4 at a concrete domain extraction. -/
theorem c4_casing_w :
    ∃ x ∈ (["Example.COM"] : List String),
      (⟨"example.com", "domain"⟩ : Match).Value = finalVal "domain" x :=
  (c4_casing cPlain exOr "domain" "x" ["Example.COM"] [] [] []).2.1
    ⟨"example.com", "domain"⟩ (by decide) (by decide)

/-- C5: for a fresh, non-ignored domain candidate, a successful base-domain
lookup whose nonempty value differs from the case-folded match and is not
itself ignored yields exactly one additional `base_domain` result next to
the primary domain match, in both paths; a failed lookup yields no
`base_domain` result and leaves the primary match intact.  On
`visit sub.test.org` with no ignore rules both `sub.test.org` (domain) and
`test.org` (base_domain) are produced. -/
theorem c5_base_domain (ck : PrivateChecks) (o : Oracles) (m b text : String)
    (seen ms : List String) (R : List (Nat × Nat)) (p : Nat × Nat)
    (ps : List (Nat × Nat)) :
    (seen.contains (goToLower m) = false → isDomainIgnored ck (goToLower m) = false →
      goToLower m ≠ "" → o.etld1 (goToLower m) = some b → b ≠ "" → b ≠ goToLower m →
      isDomainIgnored ck b = false →
      getMatchesAux ck o "domain" seen (m :: ms) =
        ⟨b, "base_domain"⟩ :: ⟨goToLower m, "domain"⟩ ::
          getMatchesAux ck o "domain" (goToLower m :: seen) ms) ∧
    (seen.contains (goToLower m) = false → isDomainIgnored ck (goToLower m) = false →
      goToLower m ≠ "" → o.etld1 (goToLower m) = none →
      getMatchesAux ck o "domain" seen (m :: ms) =
        ⟨goToLower m, "domain"⟩ ::
          getMatchesAux ck o "domain" (goToLower m :: seen) ms) ∧
    (containedInAny R p = false →
      seen.contains (goToLower (slice text p)) = false →
      isDomainIgnored ck (goToLower (slice text p)) = false →
      o.etld1 (goToLower (slice text p)) = some b → b ≠ "" →
      b ≠ goToLower (slice text p) → isDomainIgnored ck b = false →
      kindPassAux ck o "domain" text R seen (p :: ps) =
        ((⟨slice text p, "domain"⟩ : Match) ::
            (kindPassAux ck o "domain" text R
              (goToLower (slice text p) :: seen) ps).1,
          (⟨b, "base_domain"⟩ : Match) ::
            (kindPassAux ck o "domain" text R
              (goToLower (slice text p) :: seen) ps).2)) ∧
    (containedInAny R p = false →
      seen.contains (goToLower (slice text p)) = false →
      isDomainIgnored ck (goToLower (slice text p)) = false →
      o.etld1 (goToLower (slice text p)) = none →
      kindPassAux ck o "domain" text R seen (p :: ps) =
        ((⟨slice text p, "domain"⟩ : Match) ::
            (kindPassAux ck o "domain" text R
              (goToLower (slice text p) :: seen) ps).1,
          (kindPassAux ck o "domain" text R
            (goToLower (slice text p) :: seen) ps).2)) ∧
    GetMatches cPlain exOr "domain" ["sub.test.org"] =
      [⟨"test.org", "base_domain"⟩, ⟨"sub.test.org", "domain"⟩] ∧
    ExtractAllKind cPlain exOr exampleScan "visit sub.test.org" "domain" =
      [⟨"sub.test.org", "domain"⟩] ∧
    ExtractAllKind cPlain exOr exampleScan "visit sub.test.org" "base_domain" =
      [⟨"test.org", "base_domain"⟩] := by
  refine ⟨?_, ?_, ?_, ?_, by decide, by decide, by decide⟩
  · intro hs hig hne hb hb1 hb2 hb3
    rw [gm_cons_app ck o "domain" m seen ms
      (show (seen.contains (keyOf "domain" m)) = false from hs)
      (show dropsKey ck o "domain" (keyOf "domain" m) = false from hig)
      (show finalVal "domain" m ≠ "" from hne)]
    rw [show keyOf "domain" m = goToLower m from rfl,
      show finalVal "domain" m = goToLower m from rfl]
    have hx : extrasOf ck o "domain" (goToLower m) = [⟨b, "base_domain"⟩] := by
      show baseExtras ck o (goToLower m) = _
      unfold baseExtras
      rw [hb]
      exact if_pos ⟨hb1, hb2, hb3⟩
    rw [hx]
    rfl
  · intro hs hig hne hb
    rw [gm_cons_app ck o "domain" m seen ms
      (show (seen.contains (keyOf "domain" m)) = false from hs)
      (show dropsKey ck o "domain" (keyOf "domain" m) = false from hig)
      (show finalVal "domain" m ≠ "" from hne)]
    rw [show keyOf "domain" m = goToLower m from rfl,
      show finalVal "domain" m = goToLower m from rfl]
    have hx : extrasOf ck o "domain" (goToLower m) = [] := by
      show baseExtras ck o (goToLower m) = _
      unfold baseExtras
      rw [hb]
    rw [hx]
    rfl
  · intro hc hs hig hb hb1 hb2 hb3
    rw [kp_cons_app ck o "domain" text R seen p ps hc hs
      (show eaDropsKey ck "domain" (goToLower (slice text p)) = false from hig)]
    have hx : extrasOf ck o "domain" (goToLower (slice text p)) =
        [⟨b, "base_domain"⟩] := by
      show baseExtras ck o (goToLower (slice text p)) = _
      unfold baseExtras
      rw [hb]
      exact if_pos ⟨hb1, hb2, hb3⟩
    rw [hx]
    rfl
  · intro hc hs hig hb
    rw [kp_cons_app ck o "domain" text R seen p ps hc hs
      (show eaDropsKey ck "domain" (goToLower (slice text p)) = false from hig)]
    have hx : extrasOf ck o "domain" (goToLower (slice text p)) = [] := by
      show baseExtras ck o (goToLower (slice text p)) = _
      unfold baseExtras
      rw [hb]
    rw [hx]
    rfl

/-- Witness for C5 at `sub.test.org` with base `test.org`. -/
theorem c5_base_domain_w :
    getMatchesAux cPlain.Checks exOr "domain" [] ["sub.test.org"] =
      ⟨"test.org", "base_domain"⟩ :: ⟨goToLower "sub.test.org", "domain"⟩ ::
        getMatchesAux cPlain.Checks exOr "domain" [goToLower "sub.test.org"] [] ∧
    kindPassAux cPlain.Checks exOr "domain" "visit sub.test.org" [] [] [(6, 18)] =
      ((⟨slice "visit sub.test.org" (6, 18), "domain"⟩ : Match) ::
          (kindPassAux cPlain.Checks exOr "domain" "visit sub.test.org" []
            [goToLower (slice "visit sub.test.org" (6, 18))] []).1,
        (⟨"test.org", "base_domain"⟩ : Match) ::
          (kindPassAux cPlain.Checks exOr "domain" "visit sub.test.org" []
            [goToLower (slice "visit sub.test.org" (6, 18))] []).2) :=
  ⟨(c5_base_domain cPlain.Checks exOr "sub.test.org" "test.org" "x" [] [] [] (0, 0)
      []).1 (by decide) (by decide) (by decide) (by decide) (by decide) (by decide)
      (by decide),
    (c5_base_domain cPlain.Checks exOr "x" "test.org" "visit sub.test.org" [] [] []
      (6, 18) []).2.2.1 (by decide) (by decide) (by decide) (by decide) (by decide)
      (by decide) (by decide)⟩

/-- C6: an `ipv4` candidate not yet seen is dropped exactly when the
suppression flag is on and the private-IP predicate holds; the predicate
holds exactly when the literal parses and the address is private, loopback
or link-local unicast, and an unparseable literal is never private.  With
suppression on, `192.168.1.1` yields nothing and `8.8.8.8` yields exactly
one `ipv4` match. -/
theorem c6_private_ip (ck : PrivateChecks) (o : Oracles) (s m : String)
    (seen ms : List String) :
    (isPrivateIP s = true ↔ ∃ a b c d, parseIPv4 s = some (a, b, c, d) ∧
      (a = 10 ∨ (a = 172 ∧ 16 ≤ b ∧ b ≤ 31) ∨ (a = 192 ∧ b = 168) ∨ a = 127 ∨
        (a = 169 ∧ b = 254))) ∧
    (parseIPv4 s = none → isPrivateIP s = false) ∧
    (seen.contains (goToLower m) = false →
      (ck.IgnorePrivateIPs && isPrivateIP m) = true →
      getMatchesAux ck o "ipv4" seen (m :: ms) = getMatchesAux ck o "ipv4" seen ms) ∧
    (seen.contains (goToLower m) = false →
      (ck.IgnorePrivateIPs && isPrivateIP m) = false → m ≠ "" →
      getMatchesAux ck o "ipv4" seen (m :: ms) =
        ⟨m, "ipv4"⟩ :: getMatchesAux ck o "ipv4" (goToLower m :: seen) ms) ∧
    GetMatches cIPs exOr "ipv4" ["192.168.1.1"] = [] ∧
    GetMatches cIPs exOr "ipv4" ["8.8.8.8"] = [⟨"8.8.8.8", "ipv4"⟩] := by
  refine ⟨?_, ?_, ?_, ?_, by decide, by decide⟩
  · cases hp : parseIPv4 s with
    | none => simp [isPrivateIP, hp]
    | some q =>
      obtain ⟨a, b, c, d⟩ := q
      simp only [isPrivateIP, hp, isPrivateV4, isLoopbackV4, isLinkLocalV4,
        Bool.or_eq_true, decide_eq_true_eq, Option.some.injEq]
      constructor
      · intro h
        exact ⟨a, b, c, d, rfl, by tauto⟩
      · rintro ⟨a', b', c', d', heq, hprop⟩
        obtain ⟨rfl, rfl, rfl, rfl⟩ : a' = a ∧ b' = b ∧ c' = c ∧ d' = d := by
          simpa [Prod.ext_iff] using heq.symm
        tauto
  · intro hp
    simp [isPrivateIP, hp]
  · intro hs hf
    have hkey : dropsKey ck o "ipv4" (keyOf "ipv4" m) = true := by
      show (ck.IgnorePrivateIPs && isPrivateIP (goToLower m)) = true
      rw [isPrivateIP_toLower]
      exact hf
    exact gm_cons_filtered ck o "ipv4" m seen ms hs hkey
  · intro hs hf hne
    have hkey : dropsKey ck o "ipv4" (keyOf "ipv4" m) = false := by
      show (ck.IgnorePrivateIPs && isPrivateIP (goToLower m)) = false
      rw [isPrivateIP_toLower]
      exact hf
    rw [gm_cons_app ck o "ipv4" m seen ms hs hkey
      (show finalVal "ipv4" m ≠ "" from hne)]
    rfl

/-- Witness for C6 at the two concrete literals. -/
theorem c6_private_ip_w :
    getMatchesAux cIPs.Checks exOr "ipv4" [] ["192.168.1.1"] =
      getMatchesAux cIPs.Checks exOr "ipv4" [] [] ∧
    getMatchesAux cIPs.Checks exOr "ipv4" [] ["8.8.8.8"] =
      ⟨"8.8.8.8", "ipv4"⟩ ::
        getMatchesAux cIPs.Checks exOr "ipv4" [goToLower "8.8.8.8"] [] :=
  ⟨(c6_private_ip cIPs.Checks exOr "x" "192.168.1.1" [] []).2.2.1 (by decide)
      (by decide),
    (c6_private_ip cIPs.Checks exOr "x" "8.8.8.8" [] []).2.2.2.1 (by decide)
      (by decide) (by decide)⟩

/-- C7 counterexample: on `http://A.io http://a.io` the domain candidate
inside the first URL occurrence is containment-suppressed, and the
retained `domain` value comes from the second text occurrence (`a.io`),
not the first (`A.io`), although both share the case-folded form. -/
theorem c7_cex :
    ExtractAllKind cPlain exOr exampleScan "http://A.io http://a.io" "domain" =
      [⟨"a.io", "domain"⟩] ∧
    exampleScan "domain" "http://A.io http://a.io" = [(7, 11), (19, 23)] ∧
    slice "http://A.io http://a.io" (7, 11) = "A.io" ∧
    slice "http://A.io http://a.io" (19, 23) = "a.io" ∧
    goToLower "A.io" = goToLower "a.io" ∧
    ("A.io" : String) ≠ "a.io" := by decide

/-- C7 (amended): within one `GetMatches` call, and within one kind of one
`ExtractAll` call, results are de-duplicated by case-folded value: the
kind's result sequence holds pairwise distinct case-folded values, and
every retained result comes from the first occurrence whose key matches —
first in list order in `GetMatches`, first among the occurrences not
suppressed by URL containment in `ExtractAll`. -/
theorem c7_dedup_amended (c : Contextualizer) (o : Oracles) (kind text : String)
    (ms : List String) (R : List (Nat × Nat)) (ps : List (Nat × Nat)) :
    ((GetMatches c o kind ms).filter (fun m => m.Ty == kind)).Pairwise
      (fun a b => goToLower a.Value ≠ goToLower b.Value) ∧
    (∀ m ∈ GetMatches c o kind ms, m.Ty = kind →
      ∃ ms1 x ms2, ms = ms1 ++ x :: ms2 ∧ m.Value = finalVal kind x ∧
        ∀ y ∈ ms1, keyOf kind y ≠ keyOf kind x) ∧
    (kindPassAux c.Checks o kind text R [] ps).1.Pairwise
      (fun a b => goToLower a.Value ≠ goToLower b.Value) ∧
    (∀ m ∈ (kindPassAux c.Checks o kind text R [] ps).1,
      ∃ ps1 p ps2, ps = ps1 ++ p :: ps2 ∧ m.Value = slice text p ∧
        containedInAny R p = false ∧
        ∀ q ∈ ps1, containedInAny R q = false →
          goToLower (slice text q) ≠ goToLower (slice text p)) := by
  refine ⟨gm_pairwise c.Checks o kind ms [], ?_,
    kp_pairwise c.Checks o kind text R ps [], ?_⟩
  · intro m hm hty
    obtain ⟨ms1, x, ms2, heq, hv, -, -, -, hfirst⟩ :=
      gm_sound c.Checks o kind ms [] m hm hty
    exact ⟨ms1, x, ms2, heq, hv, hfirst⟩
  · intro m hm
    obtain ⟨ps1, p, ps2, heq, hv, hcp, -, -, hfirst⟩ :=
      kp_sound c.Checks o kind text R ps [] m hm
    exact ⟨ps1, p, ps2, heq, by rw [hv], hcp, hfirst⟩

/-- Witness for C7 (amended) at a concrete one-element extraction. -/
theorem c7_dedup_amended_w :
    ∃ ms1 x ms2, (["abc"] : List String) = ms1 ++ x :: ms2 ∧
      (⟨"abc", "md5"⟩ : Match).Value = finalVal "md5" x ∧
      ∀ y ∈ ms1, keyOf "md5" y ≠ keyOf "md5" x :=
  (c7_dedup_amended cPlain exOr "md5" "x" ["abc"] [] []).2.1 ⟨"abc", "md5"⟩
    (by decide) (by decide)
